import Mathlib

/-!
# Verification of the ComfyUI-Launcher core against its specification

Shallow embedding of the launcher's core subsystems:

* the resumable transfer engine (`download` in `src/main/lib/download.ts`),
* the bounded content cache (`createCache` in `src/main/lib/cache.ts`),
* the archive extraction exit handling (`extract` in `lib/extract.js`),
* the port-lock reader (`readPortLock` in `src/main/lib/process.ts`),
* the install orchestrator (`downloadAndExtract` / `downloadAndExtractMulti`
  in `src/main/lib/installer.ts`).

File contents at a path are modelled as `Option (List Nat)` (a byte list, or
absent); the parsed sidecar as `Option DownloadMeta`.  JavaScript numbers that
hold byte counts are modelled as `Nat`; `Math.round(x)` over the nonnegative
rationals that appear here is modelled exactly as `⌊x + 1/2⌋`.
-/

namespace Launcher

/-! ## Transfer engine data model (download.ts) -/

/-- Sidecar file stored alongside incomplete downloads for resume support
(interface `DownloadMeta` in download.ts). -/
structure DownloadMeta where
  url : String
  expectedSize : Nat
  etag : Option String
  lastModified : Option String
deriving Repr, DecidableEq

/-- The on-disk state of one destination path: the data file's bytes (if the
file exists) and the parsed sidecar (if it exists and parses). -/
structure FsState where
  file : Option (List Nat)
  meta : Option DownloadMeta
deriving Repr, DecidableEq

/-- The distinct rejection reasons of `download` that the model covers. -/
inductive DlError where
  | httpError (code : Nat)
  | sizeMismatch (expected reported : Nat)
  | incomplete (expected actual : Nat)
deriving Repr, DecidableEq

/-- How one request/response cycle of `download` settles. -/
inductive Outcome where
  | resolved
  | rejected (e : DlError)
  | redirect (loc : String)
deriving Repr, DecidableEq

/-- The resume-relevant headers `download` puts on its request
(`Range: bytes=<n>-` and `If-Range`). -/
structure NetRequest where
  range : Option Nat
  ifRange : Option String
deriving Repr, DecidableEq

/-- The response headers `download` inspects.  `contentLength` is the parsed
numeric `Content-Length` header when present. -/
structure NetResponse where
  statusCode : Nat
  location : Option String
  contentLength : Option Nat
  etag : Option String
  lastModified : Option String
deriving Repr, DecidableEq

/-- Result of one request/response cycle: final on-disk state, outcome,
the `(receivedBytes, percent)` values passed to `onProgress` (one per data
chunk), the number of body bytes received over the network, and the sidecar
`writeMeta` recorded for this attempt (`none` when the attempt failed before
the sidecar write). -/
structure DlResult where
  fs : FsState
  outcome : Outcome
  progress : List (Nat × Nat)
  netBytes : Nat
  metaWritten : Option DownloadMeta
deriving Repr, DecidableEq

/-- `Math.round (a / b)` for nonnegative `a`, `b > 0`: `⌊a/b + 1/2⌋`. -/
def jsRound (a b : Nat) : Nat := (2 * a + b) / (2 * b)

/-- `percent` as computed in the `data` handler:
`effectiveTotal > 0 ? Math.round((receivedBytes / effectiveTotal) * 100) : 0`. -/
def percentOf (receivedBytes effectiveTotal : Nat) : Nat :=
  if 0 < effectiveTotal then jsRound (receivedBytes * 100) effectiveTotal else 0

/-- The `(receivedBytes, percent)` values passed to `onProgress`, one per
chunk: `receivedBytes` starts at `baseBytes` and grows by each chunk's
length. -/
def progressTrace (base effectiveTotal : Nat) : List (List Nat) → List (Nat × Nat)
  | [] => []
  | c :: cs =>
      (base + c.length, percentOf (base + c.length) effectiveTotal)
        :: progressTrace (base + c.length) effectiveTotal cs

/-- What the pre-request phase of `download` (resume detection, download.ts
lines 77-101) decides: either resolve immediately without any network request,
or issue a request with a resume offset and the sidecar's etag at hand. -/
inductive PreStep where
  | earlyResolve (st : FsState)
  | request (st : FsState) (resumeFrom : Nat) (etag : Option String)
deriving Repr, DecidableEq

/-- Resume detection (download.ts lines 77-101).  With sidecar and data file
both present: a matching URL resumes from the file's length; a zero offset
(URL mismatch or empty file) purges both files; a file already at or beyond a
positive recorded `expectedSize` deletes the sidecar and resolves immediately.
A sidecar without a data file is deleted as stale. -/
def preRequest (url : String) (st : FsState) : PreStep :=
  match st.meta, st.file with
  | some m, some c =>
      let resumeFrom := if m.url = url then c.length else 0
      if resumeFrom = 0 then
        .request { file := none, meta := none } 0 m.etag
      else if 0 < m.expectedSize ∧ m.expectedSize ≤ resumeFrom then
        .earlyResolve { file := some c, meta := none }
      else
        .request { file := some c, meta := some m } resumeFrom m.etag
  | some _, none => .request { file := none, meta := none } 0 none
  | none, f => .request { file := f, meta := none } 0 none

/-- Request headers (download.ts lines 103-108): `Range` and `If-Range` are
set only when `resumeFrom > 0` and the sidecar recorded an etag. -/
def mkRequest (resumeFrom : Nat) (etag : Option String) : NetRequest :=
  if 0 < resumeFrom ∧ etag.isSome then
    { range := some resumeFrom, ifRange := etag }
  else
    { range := none, ifRange := none }

/-- The request `download` would issue for a given starting state, or `none`
when it resolves without issuing one. -/
def requestFor (url : String) (st : FsState) : Option NetRequest :=
  match preRequest url st with
  | .earlyResolve _ => none
  | .request _ resumeFrom etag => some (mkRequest resumeFrom etag)

/-- Split a byte list into chunks of the given sizes, any remainder forming a
final chunk; models the arbitrary chunk boundaries of the response stream. -/
def chunkBy : List Nat → List Nat → List (List Nat)
  | _, [] => []
  | [], l => [l]
  | n :: ns, l => l.take n :: chunkBy ns (l.drop n)

/-- `totalBytes` restricted to a present `Content-Length`
(download.ts lines 159-166): `chunkTotalBytes > 0 ? totalBytes : 0`. -/
def sizeFromHeaders (resumeFrom : Nat) (resp : NetResponse) : Nat :=
  let chunkTotal := resp.contentLength.getD 0
  let isResumed := resp.statusCode = 206 ∧ 0 < resumeFrom
  let totalBytes := if isResumed then resumeFrom + chunkTotal else chunkTotal
  if 0 < chunkTotal then totalBytes else 0

/-- The stream-close validation (download.ts lines 228-252): with a known
effective size the final file length must match exactly or data file and
sidecar are both deleted; on success (or unknown size) only the sidecar is
deleted. -/
def finalizeDownload (effectiveSize : Nat) (written : List Nat) : FsState × Outcome :=
  if 0 < effectiveSize then
    if written.length = effectiveSize then
      ({ file := some written, meta := none }, .resolved)
    else
      ({ file := none, meta := none }, .rejected (.incomplete effectiveSize written.length))
  else
    ({ file := some written, meta := none }, .resolved)

/-- The response handler of `download` (download.ts lines 127-254), for a
stream that ends without abort.  `chunks` are the data events of the body. -/
def handleResponse (url : String) (expectedSize : Option Nat) (resumeFrom : Nat)
    (st : FsState) (resp : NetResponse) (chunks : List (List Nat)) : DlResult :=
  if 300 ≤ resp.statusCode ∧ resp.statusCode < 400 ∧ resp.location.isSome then
    { fs := st, outcome := .redirect (resp.location.getD ""), progress := [],
      netBytes := 0, metaWritten := none }
  else if ¬(resp.statusCode = 206 ∧ 0 < resumeFrom) ∧ resp.statusCode ≠ 200 then
    { fs := st, outcome := .rejected (.httpError resp.statusCode), progress := [],
      netBytes := 0, metaWritten := none }
  else
    -- isResumed := statusCode == 206 && resumeFrom > 0
    let baseBytes := if resp.statusCode = 206 ∧ 0 < resumeFrom then resumeFrom else 0
    -- a range was requested but the server sent full content: discard the partial
    let file1 := if resp.statusCode = 206 ∧ 0 < resumeFrom then st.file
                 else if 0 < resumeFrom then none else st.file
    let chunkTotal := resp.contentLength.getD 0
    let totalBytes := if resp.statusCode = 206 ∧ 0 < resumeFrom
                      then baseBytes + chunkTotal else chunkTotal
    let sfh := sizeFromHeaders resumeFrom resp
    let esVal := expectedSize.getD 0
    let effectiveSize := if esVal ≠ 0 then esVal else sfh
    if esVal ≠ 0 ∧ 0 < sfh ∧ esVal ≠ sfh then
      { fs := { file := file1, meta := st.meta },
        outcome := .rejected (.sizeMismatch esVal sfh), progress := [],
        netBytes := 0, metaWritten := none }
    else
      -- writeMeta marks the transfer in progress; the file stream appends
      -- exactly when the server honoured the range
      let base0 := if resp.statusCode = 206 ∧ 0 < resumeFrom then st.file.getD [] else []
      let written := base0 ++ chunks.flatten
      let effectiveTotal := if effectiveSize ≠ 0 then effectiveSize else totalBytes
      let fin := finalizeDownload effectiveSize written
      { fs := fin.1, outcome := fin.2,
        progress := progressTrace baseBytes effectiveTotal chunks,
        netBytes := chunks.flatten.length,
        metaWritten := some { url := url, expectedSize := effectiveSize,
                              etag := resp.etag, lastModified := resp.lastModified } }

/-- A remote resource: its bytes and its entity tag. -/
structure Server where
  content : List Nat
  etag : String
deriving Repr, DecidableEq

/-- The range the server honours, if any: requires both `Range` and an
`If-Range` matching the current etag, with an in-bounds offset. -/
def serverHonorsRange (srv : Server) (req : NetRequest) : Option Nat :=
  match req.range, req.ifRange with
  | some o, some t => if t = srv.etag ∧ o ≤ srv.content.length then some o else none
  | _, _ => none

/-- Headers of an honest server's response: 206 with the remaining length when
it honours the range, otherwise 200 with the full length. -/
def serverRespond (srv : Server) (req : NetRequest) : NetResponse :=
  match serverHonorsRange srv req with
  | some o =>
      { statusCode := 206, location := none,
        contentLength := some (srv.content.length - o),
        etag := some srv.etag, lastModified := none }
  | none =>
      { statusCode := 200, location := none,
        contentLength := some srv.content.length,
        etag := some srv.etag, lastModified := none }

/-- Body of an honest server's response. -/
def serverBody (srv : Server) (req : NetRequest) : List Nat :=
  match serverHonorsRange srv req with
  | some o => srv.content.drop o
  | none => srv.content

/-- One full `download` call against an honest server (no redirects):
resume detection, request headers, response handling.  `sizes` fixes the
chunk boundaries of the body stream. -/
def downloadStep (url : String) (expectedSize : Option Nat) (srv : Server)
    (sizes : List Nat) (st : FsState) : DlResult :=
  match preRequest url st with
  | .earlyResolve st' =>
      { fs := st', outcome := .resolved, progress := [], netBytes := 0,
        metaWritten := none }
  | .request st' resumeFrom etag =>
      let req := mkRequest resumeFrom etag
      let resp := serverRespond srv req
      handleResponse url expectedSize resumeFrom st' resp (chunkBy sizes (serverBody srv req))

/-! ## Content cache (cache.ts) -/

/-- One immediate subfolder of the cache base directory, with its
modification time. -/
structure Entry where
  name : String
  mtime : Nat
deriving Repr, DecidableEq

/-- Insert an entry into a list sorted by `mtime` descending, after any entry
with an equal or larger `mtime` (the stable order JavaScript's `sort` with
comparator `b.mtime - a.mtime` produces). -/
def insertDesc (e : Entry) : List Entry → List Entry
  | [] => [e]
  | x :: xs => if x.mtime < e.mtime then e :: x :: xs else x :: insertDesc e xs

/-- `folders.sort((a, b) => b.mtime - a.mtime)` — newest first. -/
def sortByMtimeDesc : List Entry → List Entry
  | [] => []
  | x :: xs => insertDesc x (sortByMtimeDesc xs)

/-- `evict` (cache.ts lines 20-38): sort subfolders newest-first, then pop and
recursively delete from the end while more than `maxEntries` remain.  Returns
(survivors, deletions in the order they are performed). -/
def evictList (maxEntries : Nat) (entries : List Entry) : List Entry × List Entry :=
  let sorted := sortByMtimeDesc entries
  (sorted.take maxEntries, (sorted.drop maxEntries).reverse)

/-- The cache operations a caller can perform. -/
inductive CacheOp where
  | populate (name : String)
  | touch (name : String)
  | evict
deriving Repr, DecidableEq

/-- Cache base directory contents plus a logical clock supplying strictly
increasing modification times. -/
structure CacheState where
  entries : List Entry
  clock : Nat
deriving Repr, DecidableEq

/-- `fs.utimesSync(folderPath, now, now)` on every entry named `name`. -/
def setMtime (name : String) (t : Nat) (l : List Entry) : List Entry :=
  l.map fun e => if e.name = name then { e with mtime := t } else e

/-- One cache operation: `populate` writes into the entry folder (creating it
if needed, refreshing its mtime either way), `touch` refreshes the mtime of an
existing entry, `evict` keeps the `maxEntries` newest folders. -/
def applyOp (maxEntries : Nat) (s : CacheState) : CacheOp → CacheState
  | .populate name =>
      if s.entries.any (fun e => e.name == name) then
        { entries := setMtime name s.clock s.entries, clock := s.clock + 1 }
      else
        { entries := s.entries ++ [{ name := name, mtime := s.clock }], clock := s.clock + 1 }
  | .touch name =>
      { entries := setMtime name s.clock s.entries, clock := s.clock + 1 }
  | .evict =>
      { entries := (evictList maxEntries s.entries).1, clock := s.clock + 1 }

/-- Run a sequence of cache operations from an empty cache directory. -/
def runCache (maxEntries : Nat) (ops : List CacheOp) : CacheState :=
  ops.foldl (applyOp maxEntries) { entries := [], clock := 0 }

/-- The state invariant maintained by every cache operation: all mtimes are in
the clock's past, folder names are distinct (they are file-system paths), and
so are mtimes (each was stamped by a distinct clock tick). -/
def GoodState (s : CacheState) : Prop :=
  (∀ e ∈ s.entries, e.mtime < s.clock) ∧
  (s.entries.Pairwise fun a b => a.name ≠ b.name) ∧
  (s.entries.Pairwise fun a b => a.mtime ≠ b.mtime)

/-! ## Extraction exit handling (lib/extract.js) -/

/-- `stderr.split(/\r?\n/)`. -/
def splitCrLf : List Char → List (List Char)
  | [] => [[]]
  | '\r' :: '\n' :: rest => [] :: splitCrLf rest
  | '\n' :: rest => [] :: splitCrLf rest
  | c :: rest =>
      match splitCrLf rest with
      | [] => [[c]]
      | l :: ls => (c :: l) :: ls

/-- `hay.startsWith needle` over character lists. -/
def listStarts : List Char → List Char → Bool
  | [], _ => true
  | _ :: _, [] => false
  | n :: ns, c :: cs => n == c && listStarts ns cs

/-- `hay.includes needle` over character lists. -/
def listHas (needle : List Char) : List Char → Bool
  | [] => needle.isEmpty
  | c :: rest => listStarts needle (c :: rest) || listHas needle rest

/-- `stderr.split(/\r?\n/).filter((l) => l.startsWith("ERROR:"))`. -/
def errorLines (stderr : List Char) : List (List Char) :=
  (splitCrLf stderr).filter fun l => listStarts "ERROR:".toList l

/-- A diagnostic line reporting only an unsupported compression method:
`l.includes("Unsupported Method")`. -/
def unsupportedMethodLine (l : List Char) : Bool :=
  listHas "Unsupported Method".toList l

/-- The `close` handler of `extract` (extract.js lines 60-74): a non-zero exit
succeeds anyway exactly when at least one `ERROR:` line exists and every such
line is an unsupported-method report; otherwise it rejects carrying the
captured stderr (or the exit code when stderr is empty). -/
def extractClose (code : Int) (stderr : List Char) : Except (List Char) Unit :=
  if code ≠ 0 then
    let errs := errorLines stderr
    if 0 < errs.length ∧ errs.all unsupportedMethodLine then
      .ok ()
    else
      .error ("Extraction failed: ".toList ++
        (if stderr.isEmpty then ("exit code ".toList ++ (toString code).toList) else stderr))
  else
    .ok ()

/-! ## Port locks (process.ts) -/

/-- What `process.kill(pid, 0)` reports for a pid. -/
inductive ProcProbe where
  | ok
  | eperm
  | esrch
deriving Repr, DecidableEq

/-- `isProcessAlive` (process.ts lines 245-252): a successful signal-0 or an
`EPERM` failure both mean the process exists. -/
def isProcessAlive (probe : Nat → ProcProbe) (pid : Nat) : Bool :=
  match probe pid with
  | .ok => true
  | .eperm => true
  | .esrch => false

/-- A parsed port lock record `{pid, installationName, timestamp}`. -/
structure PortLock where
  pid : Nat
  installationName : String
  timestamp : Nat
deriving Repr, DecidableEq

/-- The lock file for one port: absent, present but unparseable, parsed to
JSON `null`, or a valid record. -/
inductive LockFile where
  | absent
  | malformed
  | parsedNull
  | valid (lock : PortLock)
deriving Repr, DecidableEq

/-- `readPortLock` (process.ts lines 254-267): returns the parsed lock and the
lock file's state afterwards.  A missing or unparseable file reads as nothing
(the exception is swallowed); a null or pid-less record, or a record whose
owner is not alive, is deleted and reads as nothing; a live owner's record is
returned with the file untouched. -/
def readPortLock (probe : Nat → ProcProbe) (f : LockFile) : Option PortLock × LockFile :=
  match f with
  | .absent => (none, .absent)
  | .malformed => (none, .malformed)
  | .parsedNull => (none, .absent)
  | .valid lock =>
      if lock.pid = 0 ∨ isProcessAlive probe lock.pid = false then (none, .absent)
      else (some lock, .valid lock)

/-! ## Install orchestrator (installer.ts) -/

/-- `isDownloadComplete` (download.ts lines 35-37): data file present and
sidecar absent. -/
def isDownloadComplete (st : FsState) : Bool :=
  st.file.isSome && st.meta.isNone

/-- `isCacheValid` (installer.ts lines 34-44): complete, and matching the
declared size when one is given and positive. -/
def isCacheValid (st : FsState) (expectedSize : Option Nat) : Bool :=
  isDownloadComplete st &&
    (match expectedSize with
     | some e => if e ≠ 0 then (st.file.getD []).length == e else true
     | none => true)

/-- The externally visible actions of `downloadAndExtract`. -/
inductive InstallEvent where
  | progress (step : String) (percent : Nat)
  | downloadCall (url : String)
  | cacheTouch (key : String)
  | cacheEvict
  | extractCall (archive : String)
deriving Repr, DecidableEq

/-- The action trace of `downloadAndExtract` (installer.ts lines 46-100):
a valid cached artifact reports a 100% download instantly and is only
touched; otherwise the file is downloaded into the cache, touched, and the
cache evicted; either way extraction follows. -/
def downloadAndExtractTrace (url cacheKey : String) (st : FsState)
    (expectedSize : Option Nat) : List InstallEvent :=
  if isCacheValid st expectedSize then
    [.progress "download" 100, .cacheTouch cacheKey,
     .progress "extract" 0, .extractCall url]
  else
    [.progress "download" 0, .downloadCall url, .cacheTouch cacheKey, .cacheEvict,
     .progress "extract" 0, .extractCall url]

/-- One file of a `downloadAndExtractMulti` request, together with the remote
resource backing it, the chunking of its body stream, and the cache state of
its destination path. -/
structure MFile where
  url : String
  size : Nat
  srv : Server
  sizes : List Nat
  st0 : FsState
deriving Repr, DecidableEq

/-- The download-phase percent values `downloadAndExtractMulti` reports
(installer.ts lines 119-173): cached files report the aggregate after adding
their full size; other files report a starting percent, then one percent per
data chunk from aggregate received bytes, and abort the batch on failure. -/
def multiGo (totalBytes count : Nat) : Nat → Nat → List MFile → List Nat
  | _, _, [] => []
  | i, completed, f :: rest =>
      if isCacheValid f.st0 (some f.size) then
        let completed' := completed + f.size
        let p := if 0 < totalBytes then jsRound (completed' * 100) totalBytes
                 else jsRound ((i + 1) * 100) count
        p :: multiGo totalBytes count (i + 1) completed' rest
      else
        let base := if 0 < totalBytes then jsRound (completed * 100) totalBytes
                    else jsRound (i * 100) count
        let r := downloadStep f.url (if f.size = 0 then none else some f.size)
                   f.srv f.sizes f.st0
        let dl := r.progress.map fun pr =>
          if 0 < totalBytes then jsRound ((completed + pr.1) * 100) totalBytes
          else jsRound (i * 100 + pr.2) count
        match r.outcome with
        | .resolved => base :: dl ++ multiGo totalBytes count (i + 1) (completed + f.size) rest
        | _ => base :: dl

/-- The whole download-phase percent sequence of one
`downloadAndExtractMulti` call. -/
def multiPercents (files : List MFile) : List Nat :=
  multiGo (files.map (·.size)).sum files.length 0 0 files

/-! ## Basic lemmas -/

theorem chunkBy_flatten (sizes : List Nat) (l : List Nat) :
    (chunkBy sizes l).flatten = l := by
  induction sizes generalizing l with
  | nil => cases l <;> simp [chunkBy]
  | cons n ns ih =>
      cases l with
      | nil => simp [chunkBy]
      | cons b bs =>
          simp only [chunkBy, List.flatten_cons, ih]
          exact List.take_append_drop n (b :: bs)

theorem jsRound_le_jsRound (b : Nat) {a a' : Nat} (h : a ≤ a') :
    jsRound a b ≤ jsRound a' b :=
  Nat.div_le_div_right (by omega)

theorem finalizeDownload_file_cases (effectiveSize : Nat) (w : List Nat) :
    (finalizeDownload effectiveSize w).1.file = none ∨
    (finalizeDownload effectiveSize w).1.file = some w := by
  unfold finalizeDownload
  split
  · split
    · right; rfl
    · left; rfl
  · right; rfl

/-! ### Progress trace lemmas -/

theorem progressTrace_fst_ge (T : Nat) :
    ∀ (chunks : List (List Nat)) (base : Nat),
      ∀ p ∈ progressTrace base T chunks, base ≤ p.1 := by
  intro chunks
  induction chunks with
  | nil => intro base p hp; cases hp
  | cons c cs ih =>
      intro base p hp
      rcases List.mem_cons.mp hp with rfl | hp2
      · exact Nat.le_add_right _ _
      · have := ih (base + c.length) p hp2
        omega

theorem progressTrace_fst_le (T : Nat) :
    ∀ (chunks : List (List Nat)) (base : Nat),
      ∀ p ∈ progressTrace base T chunks, p.1 ≤ base + chunks.flatten.length := by
  intro chunks
  induction chunks with
  | nil => intro base p hp; cases hp
  | cons c cs ih =>
      intro base p hp
      rw [List.flatten_cons, List.length_append]
      rcases List.mem_cons.mp hp with rfl | hp2
      · show base + c.length ≤ _
        omega
      · have := ih (base + c.length) p hp2
        omega

theorem progressTrace_chain (T : Nat) :
    ∀ (chunks : List (List Nat)) (base : Nat),
      List.Chain' (fun p q : Nat × Nat => p.1 ≤ q.1) (progressTrace base T chunks) := by
  intro chunks
  induction chunks with
  | nil => intro base; exact List.chain'_nil
  | cons c cs ih =>
      intro base
      refine List.chain'_cons'.mpr ⟨?_, ih (base + c.length)⟩
      intro q hq
      have hmem : q ∈ progressTrace (base + c.length) T cs :=
        List.mem_of_mem_head? hq
      exact progressTrace_fst_ge T cs (base + c.length) q hmem

theorem preRequest_base (url : String) (st : FsState) {st' : FsState} {r : Nat}
    {et : Option String} (h : preRequest url st = .request st' r et) :
    r = 0 ∨ ∃ c, st'.file = some c ∧ r = c.length := by
  obtain ⟨f, mo⟩ := st
  cases mo with
  | none =>
      simp [preRequest] at h
      left
      omega
  | some m =>
      cases f with
      | none =>
          simp [preRequest] at h
          left
          omega
      | some c =>
          by_cases hu : m.url = url
          · by_cases hc0 : c.length = 0
            · simp [preRequest, hu, hc0] at h
              left
              omega
            · by_cases hexp : 0 < m.expectedSize ∧ m.expectedSize ≤ c.length
              · simp [preRequest, hu, hc0, hexp] at h
              · simp [preRequest, hu, hc0, hexp] at h
                right
                exact ⟨c, by rw [← h.1], h.2.1.symm⟩
          · simp [preRequest, hu] at h
            left
            omega

theorem handleResponse_progress_chain (url : String) (es : Option Nat) (r : Nat)
    (st : FsState) (resp : NetResponse) (chunks : List (List Nat)) :
    List.Chain' (fun p q : Nat × Nat => p.1 ≤ q.1)
      (handleResponse url es r st resp chunks).progress := by
  unfold handleResponse
  dsimp only
  repeat' split
  all_goals
    first
      | exact List.chain'_nil
      | exact progressTrace_chain _ _ _

theorem handleResponse_progress_le (url : String) (sz r : Nat) (st : FsState)
    (resp : NetResponse) (chunks : List (List Nat)) (hsz : 0 < sz)
    (hbase : r = 0 ∨ ∃ c, st.file = some c ∧ r = c.length) :
    (handleResponse url (some sz) r st resp chunks).outcome = .resolved →
    ∀ p ∈ (handleResponse url (some sz) r st resp chunks).progress, p.1 ≤ sz := by
  have hne : sz ≠ 0 := by omega
  unfold handleResponse
  simp only [Option.getD_some, if_pos hne]
  split
  · intro h
    exact absurd h (by simp)
  · split
    · intro h
      exact absurd h (by simp)
    · split
      · -- size-mismatch rejection: nothing streamed
        intro hres
        exact absurd hres (by simp)
      · -- streaming; case on whether the server honoured the range
        split
        · rename_i hior
          intro hres p hp
          dsimp only at hres hp
          rcases hbase with h1 | ⟨c, hcf, hcr⟩
          · exact absurd hior.2 (by omega)
          · rw [hcf] at hres
            simp only [Option.getD_some] at hres
            unfold finalizeDownload at hres
            rw [if_pos hsz] at hres
            by_cases hlen : (c ++ chunks.flatten).length = sz
            · have hle := progressTrace_fst_le _ chunks r p hp
              rw [List.length_append] at hlen
              omega
            · rw [if_neg hlen] at hres
              exact absurd hres (by simp)
        · intro hres p hp
          dsimp only at hres hp
          unfold finalizeDownload at hres
          rw [if_pos hsz] at hres
          by_cases hlen : (([] : List Nat) ++ chunks.flatten).length = sz
          · have hle := progressTrace_fst_le _ chunks 0 p hp
            simp only [List.nil_append] at hlen
            omega
          · rw [if_neg hlen] at hres
            exact absurd hres (by simp)

theorem downloadStep_progress_chain (url : String) (es : Option Nat) (srv : Server)
    (sizes : List Nat) (st : FsState) :
    List.Chain' (fun p q : Nat × Nat => p.1 ≤ q.1)
      (downloadStep url es srv sizes st).progress := by
  cases h : preRequest url st with
  | earlyResolve st' =>
      simp only [downloadStep, h]
      exact List.chain'_nil
  | request st' r et =>
      simp only [downloadStep, h]
      exact handleResponse_progress_chain _ _ _ _ _ _

theorem downloadStep_progress_le (url : String) (sz : Nat) (srv : Server)
    (sizes : List Nat) (st : FsState) (hsz : 0 < sz)
    (hres : (downloadStep url (some sz) srv sizes st).outcome = .resolved) :
    ∀ p ∈ (downloadStep url (some sz) srv sizes st).progress, p.1 ≤ sz := by
  cases h : preRequest url st with
  | earlyResolve st' =>
      simp only [downloadStep, h]
      intro p hp
      cases hp
  | request st' r et =>
      simp only [downloadStep, h] at hres ⊢
      exact handleResponse_progress_le _ _ _ _ _ _ hsz (preRequest_base url st h) hres

/-- The induction core for multi-file progress monotonicity: with a positive
aggregate byte total and every file declaring a positive size, the reported
percent sequence is a chain under `≤` and bounded below by the percent of the
bytes already completed. -/
theorem multiGo_chain (T count : Nat) (hT : 0 < T) :
    ∀ (files : List MFile) (i completed : Nat),
      (∀ f ∈ files, 0 < f.size) →
      List.Chain' (· ≤ ·) (multiGo T count i completed files) ∧
      ∀ x ∈ multiGo T count i completed files, jsRound (completed * 100) T ≤ x := by
  intro files
  induction files with
  | nil =>
      intro i completed _
      exact ⟨List.chain'_nil, fun x hx => absurd hx (by simp [multiGo])⟩
  | cons f rest ih =>
      intro i completed hpos
      have hf : 0 < f.size := hpos f (by simp)
      have hsz0 : ¬f.size = 0 := by omega
      have hrest : ∀ g ∈ rest, 0 < g.size := fun g hg => hpos g (by simp [hg])
      have hmono : ∀ a b : Nat, a ≤ b →
          jsRound (a * 100) T ≤ jsRound (b * 100) T := by
        intro a b hab
        exact jsRound_le_jsRound T (by omega)
      by_cases hcache : isCacheValid f.st0 (some f.size) = true
      · obtain ⟨ihc, ihlb⟩ := ih (i + 1) (completed + f.size) hrest
        simp only [multiGo, if_pos hcache, if_pos hT]
        constructor
        · refine List.chain'_cons'.mpr ⟨?_, ihc⟩
          intro y hy
          exact ihlb y (List.mem_of_mem_head? hy)
        · intro x hx
          rcases List.mem_cons.mp hx with rfl | hx2
          · exact hmono _ _ (Nat.le_add_right _ _)
          · exact le_trans (hmono _ _ (Nat.le_add_right _ _)) (ihlb x hx2)
      · obtain ⟨ihc, ihlb⟩ := ih (i + 1) (completed + f.size) hrest
        simp only [multiGo, if_neg hcache, if_pos hT, if_neg hsz0]
        have hchain : List.Chain' (· ≤ ·)
            ((downloadStep f.url (some f.size) f.srv f.sizes f.st0).progress.map
              fun pr => jsRound ((completed + pr.1) * 100) T) := by
          rw [List.chain'_map]
          refine (downloadStep_progress_chain f.url (some f.size) f.srv
            f.sizes f.st0).imp ?_
          intro a b hab
          exact hmono _ _ (by omega)
        have hlb : ∀ x ∈ (downloadStep f.url (some f.size) f.srv f.sizes
            f.st0).progress.map fun pr => jsRound ((completed + pr.1) * 100) T,
            jsRound (completed * 100) T ≤ x := by
          intro x hx
          rcases List.mem_map.mp hx with ⟨pr, hpr, rfl⟩
          exact hmono _ _ (Nat.le_add_right _ _)
        cases hout : (downloadStep f.url (some f.size) f.srv f.sizes f.st0).outcome with
        | resolved =>
            have hub : ∀ x ∈ (downloadStep f.url (some f.size) f.srv f.sizes
                f.st0).progress.map fun pr => jsRound ((completed + pr.1) * 100) T,
                x ≤ jsRound ((completed + f.size) * 100) T := by
              intro x hx
              rcases List.mem_map.mp hx with ⟨pr, hpr, rfl⟩
              have := downloadStep_progress_le f.url f.size f.srv f.sizes f.st0
                hf hout pr hpr
              exact hmono _ _ (by omega)
            simp only [hout]
            constructor
            · refine List.chain'_cons'.mpr ⟨?_, ?_⟩
              · intro y hy
                have hy2 := List.mem_of_mem_head? hy
                rcases List.mem_append.mp hy2 with h1 | h1
                · exact hlb y h1
                · exact le_trans (hmono _ _ (Nat.le_add_right _ _)) (ihlb y h1)
              · refine List.Chain'.append hchain ihc ?_
                intro x hx y hy
                exact le_trans
                  (hub x (List.mem_of_mem_getLast? hx))
                  (ihlb y (List.mem_of_mem_head? hy))
            · intro x hx
              rcases List.mem_cons.mp hx with rfl | hx2
              · exact le_refl _
              · rcases List.mem_append.mp hx2 with h1 | h1
                · exact hlb x h1
                · exact le_trans (hmono _ _ (Nat.le_add_right _ _)) (ihlb x h1)
        | rejected e =>
            simp only [hout]
            constructor
            · refine List.chain'_cons'.mpr ⟨?_, hchain⟩
              intro y hy
              exact hlb y (List.mem_of_mem_head? hy)
            · intro x hx
              rcases List.mem_cons.mp hx with rfl | hx2
              · exact le_refl _
              · exact hlb x hx2
        | redirect loc =>
            simp only [hout]
            constructor
            · refine List.chain'_cons'.mpr ⟨?_, hchain⟩
              intro y hy
              exact hlb y (List.mem_of_mem_head? hy)
            · intro x hx
              rcases List.mem_cons.mp hx with rfl | hx2
              · exact le_refl _
              · exact hlb x hx2

/-! ### Cache eviction lemmas -/

theorem insertDesc_perm (e : Entry) (l : List Entry) :
    (insertDesc e l).Perm (e :: l) := by
  induction l with
  | nil => exact .refl _
  | cons x xs ih =>
      unfold insertDesc
      split
      · exact .refl _
      · exact (ih.cons x).trans (.swap e x xs)

theorem sortByMtimeDesc_perm (l : List Entry) : (sortByMtimeDesc l).Perm l := by
  induction l with
  | nil => exact .refl _
  | cons x xs ih => exact (insertDesc_perm x (sortByMtimeDesc xs)).trans (ih.cons x)

theorem mem_insertDesc {b e : Entry} {l : List Entry} :
    b ∈ insertDesc e l ↔ b = e ∨ b ∈ l := by
  rw [(insertDesc_perm e l).mem_iff, List.mem_cons]

theorem insertDesc_sorted (e : Entry) (l : List Entry)
    (h : l.Pairwise fun a b => b.mtime ≤ a.mtime) :
    (insertDesc e l).Pairwise fun a b => b.mtime ≤ a.mtime := by
  induction l with
  | nil => simp [insertDesc]
  | cons x xs ih =>
      rcases List.pairwise_cons.mp h with ⟨hx, hxs⟩
      unfold insertDesc
      split
      · rename_i hlt
        refine List.pairwise_cons.mpr ⟨?_, h⟩
        intro b hb
        rcases List.mem_cons.mp hb with rfl | hbxs
        · omega
        · have := hx b hbxs
          omega
      · rename_i hge
        refine List.pairwise_cons.mpr ⟨?_, ih hxs⟩
        intro b hb
        rcases mem_insertDesc.mp hb with rfl | hbxs
        · omega
        · exact hx b hbxs

theorem sortByMtimeDesc_sorted (l : List Entry) :
    (sortByMtimeDesc l).Pairwise fun a b => b.mtime ≤ a.mtime := by
  induction l with
  | nil => exact .nil
  | cons x xs ih => exact insertDesc_sorted x _ ih

theorem setMtime_mem {name : String} {t : Nat} {l : List Entry} {b : Entry}
    (hb : b ∈ setMtime name t l) :
    ∃ a ∈ l, b = if a.name = name then { a with mtime := t } else a := by
  rcases List.mem_map.mp hb with ⟨a, ha, rfl⟩
  exact ⟨a, ha, rfl⟩

theorem setMtime_bound {name : String} {t : Nat} {l : List Entry}
    (h : ∀ e ∈ l, e.mtime < t) :
    ∀ e ∈ setMtime name t l, e.mtime < t + 1 := by
  intro e he
  rcases setMtime_mem he with ⟨a, ha, rfl⟩
  split
  · exact Nat.lt_succ_self t
  · exact Nat.lt_succ_of_lt (h a ha)

theorem setMtime_name_pairwise {name : String} {t : Nat} {l : List Entry}
    (h : l.Pairwise fun a b => a.name ≠ b.name) :
    (setMtime name t l).Pairwise fun a b => a.name ≠ b.name := by
  unfold setMtime
  rw [List.pairwise_map]
  refine h.imp ?_
  intro a b hab
  split <;> split <;> exact hab

theorem setMtime_mtime_pairwise {name : String} {t : Nat} {l : List Entry}
    (hname : l.Pairwise fun a b => a.name ≠ b.name)
    (hbound : ∀ e ∈ l, e.mtime < t)
    (hmt : l.Pairwise fun a b => a.mtime ≠ b.mtime) :
    (setMtime name t l).Pairwise fun a b => a.mtime ≠ b.mtime := by
  induction l with
  | nil => exact .nil
  | cons x xs ih =>
      rcases List.pairwise_cons.mp hname with ⟨hxname, hxsname⟩
      rcases List.pairwise_cons.mp hmt with ⟨hxmt, hxsmt⟩
      have hxb : x.mtime < t := hbound x (by simp)
      have hxsb : ∀ e ∈ xs, e.mtime < t := fun e he => hbound e (by simp [he])
      refine List.pairwise_cons.mpr ⟨?_, ih hxsname hxsb hxsmt⟩
      intro b hb
      rcases setMtime_mem hb with ⟨a, ha, rfl⟩
      by_cases hxn : x.name = name
      · have han : ¬a.name = name := fun h0 => (hxname a ha) (hxn.trans h0.symm)
        show (if x.name = name then { x with mtime := t } else x).mtime ≠ _
        rw [if_pos hxn, if_neg han]
        exact (hxsb a ha).ne'
      · show (if x.name = name then { x with mtime := t } else x).mtime ≠ _
        rw [if_neg hxn]
        by_cases han : a.name = name
        · rw [if_pos han]
          exact Nat.ne_of_lt hxb
        · rw [if_neg han]
          exact hxmt a ha

theorem applyOp_good {K : Nat} {s : CacheState} (h : GoodState s) (op : CacheOp) :
    GoodState (applyOp K s op) := by
  obtain ⟨hb, hn, hm⟩ := h
  cases op with
  | populate name =>
      simp only [applyOp]
      split
      · exact ⟨setMtime_bound hb, setMtime_name_pairwise hn,
          setMtime_mtime_pairwise hn hb hm⟩
      · rename_i hnotany
        have hfresh : ∀ e ∈ s.entries, e.name ≠ name := by
          intro e he habs
          exact hnotany (List.any_eq_true.mpr ⟨e, he, by simp [habs]⟩)
        refine ⟨?_, ?_, ?_⟩
        · intro e he
          rcases List.mem_append.mp he with h1 | h1
          · exact Nat.lt_succ_of_lt (hb e h1)
          · rw [List.mem_singleton.mp h1]
            exact Nat.lt_succ_self _
        · refine List.pairwise_append.mpr ⟨hn, List.pairwise_singleton _ _, ?_⟩
          intro a ha b hbm
          rw [List.mem_singleton.mp hbm]
          exact hfresh a ha
        · refine List.pairwise_append.mpr ⟨hm, List.pairwise_singleton _ _, ?_⟩
          intro a ha b hbm
          rw [List.mem_singleton.mp hbm]
          exact Nat.ne_of_lt (hb a ha)
  | touch name =>
      exact ⟨setMtime_bound hb, setMtime_name_pairwise hn,
        setMtime_mtime_pairwise hn hb hm⟩
  | evict =>
      have hperm := sortByMtimeDesc_perm s.entries
      have hsub : ((sortByMtimeDesc s.entries).take K).Sublist (sortByMtimeDesc s.entries) :=
        List.take_sublist _ _
      refine ⟨?_, ?_, ?_⟩
      · intro e he
        have : e ∈ s.entries := hperm.mem_iff.mp (hsub.subset he)
        exact Nat.lt_succ_of_lt (hb e this)
      · exact List.Pairwise.sublist hsub
          ((hperm.pairwise_iff fun h => h.symm).mpr hn)
      · exact List.Pairwise.sublist hsub
          ((hperm.pairwise_iff fun h => h.symm).mpr hm)

theorem runCache_good (K : Nat) (ops : List CacheOp) : GoodState (runCache K ops) := by
  have hstep : ∀ s, GoodState s → GoodState (ops.foldl (applyOp K) s) := by
    induction ops with
    | nil => exact fun s h => h
    | cons op rest ih => exact fun s h => ih _ (applyOp_good h op)
  exact hstep _ ⟨by simp, List.Pairwise.nil, List.Pairwise.nil⟩

theorem preRequest_resume (url : String) (c : List Nat) (m : DownloadMeta)
    (hurl : m.url = url) (hc : c ≠ [])
    (hbelow : 0 < m.expectedSize → c.length < m.expectedSize) :
    preRequest url { file := some c, meta := some m } =
      .request { file := some c, meta := some m } c.length m.etag := by
  have hlen : ¬c.length = 0 := by simpa [List.length_eq_zero] using hc
  have h2 : ¬(0 < m.expectedSize ∧ m.expectedSize ≤ c.length) := by
    rintro ⟨ha, hb⟩
    exact absurd (hbelow ha) (by omega)
  unfold preRequest
  simp [hurl, hlen, h2]

/-! ## Claim theorems -/

/-- **C1** (counterexample): `destPath` and its sidecar both exist with matching
URL (`"u"`, one byte on disk), yet the engine does not send a byte-range
request: the sidecar records no validator, so the `Range`/`If-Range` headers
are omitted (download.ts line 105 requires `existingMeta?.etag`), and the
request goes out plain. -/
theorem resume_claim_cex :
    requestFor "u"
        { file := some [1],
          meta := some { url := "u", expectedSize := 2, etag := none, lastModified := none } } =
      some { range := none, ifRange := none } ∧
    (requestFor "u"
        { file := some [1],
          meta := some { url := "u", expectedSize := 2, etag := none, lastModified := none } }).map
        NetRequest.range ≠ some (some 1) := by
  have h : requestFor "u"
      { file := some [1],
        meta := some { url := "u", expectedSize := 2, etag := none, lastModified := none } } =
      some { range := none, ifRange := none } := rfl
  rw [h]
  exact ⟨rfl, by simp⟩

/-- **C3**: a caller-declared expected size that conflicts with a positive
server-declared total size rejects with a size-mismatch error before the
sidecar for this attempt is written and before any body byte reaches disk:
the sidecar is unchanged, the data file is unchanged or deleted (the stale
partial purge of line 156), no progress event fires, and no body byte is
accepted. -/
theorem size_mismatch_fail_fast (url : String) (e resumeFrom : Nat) (st : FsState)
    (resp : NetResponse) (chunks : List (List Nat))
    (hepos : e ≠ 0)
    (hok : resp.statusCode = 200 ∨ (resp.statusCode = 206 ∧ 0 < resumeFrom))
    (hsfh : 0 < sizeFromHeaders resumeFrom resp)
    (hne : e ≠ sizeFromHeaders resumeFrom resp) :
    (handleResponse url (some e) resumeFrom st resp chunks).outcome =
      .rejected (.sizeMismatch e (sizeFromHeaders resumeFrom resp)) ∧
    (handleResponse url (some e) resumeFrom st resp chunks).fs.meta = st.meta ∧
    ((handleResponse url (some e) resumeFrom st resp chunks).fs.file = st.file ∨
      (handleResponse url (some e) resumeFrom st resp chunks).fs.file = none) ∧
    (handleResponse url (some e) resumeFrom st resp chunks).progress = [] ∧
    (handleResponse url (some e) resumeFrom st resp chunks).netBytes = 0 ∧
    (handleResponse url (some e) resumeFrom st resp chunks).metaWritten = none := by
  have h300 : ¬(300 ≤ resp.statusCode ∧ resp.statusCode < 400 ∧ resp.location.isSome) := by
    rintro ⟨h1, -, -⟩
    rcases hok with h | ⟨h, -⟩ <;> omega
  have h45 : ¬(¬(resp.statusCode = 206 ∧ 0 < resumeFrom) ∧ resp.statusCode ≠ 200) := by
    rcases hok with h | h
    · exact fun hh => hh.2 h
    · exact fun hh => hh.1 h
  have hres : handleResponse url (some e) resumeFrom st resp chunks =
      { fs := { file := if resp.statusCode = 206 ∧ 0 < resumeFrom then st.file
                        else if 0 < resumeFrom then none else st.file,
                meta := st.meta },
        outcome := .rejected (.sizeMismatch e (sizeFromHeaders resumeFrom resp)),
        progress := [], netBytes := 0, metaWritten := none } := by
    simp only [handleResponse, if_neg h300, if_neg h45]
    split
    · rfl
    · rename_i hcond
      exact absurd ⟨by simpa using hepos, hsfh, by simpa using hne⟩ hcond
  rw [hres]
  refine ⟨rfl, rfl, ?_, rfl, rfl, rfl⟩
  by_cases h1 : resp.statusCode = 206 ∧ 0 < resumeFrom
  · left; rw [if_pos h1]
  · rw [if_neg h1]
    by_cases h2 : 0 < resumeFrom
    · right; rw [if_pos h2]
    · left; rw [if_neg h2]

/-- **C3** witness. -/
theorem size_mismatch_fail_fast_witness :
    (handleResponse "u" (some 5) 0
        { file := none, meta := none }
        { statusCode := 200, location := none, contentLength := some 3,
          etag := none, lastModified := none } []).outcome =
      .rejected (.sizeMismatch 5 3) := by
  have h := size_mismatch_fail_fast "u" 5 0
    { file := none, meta := none }
    { statusCode := 200, location := none, contentLength := some 3,
      etag := none, lastModified := none } []
    (by decide) (Or.inl rfl) (by decide) (by decide)
  simpa using h.1

/-- **C1** (amended): when destPath and its sidecar both exist, the sidecar's
URL matches **and the sidecar records a validator**, with a nonempty partial
shorter than the full content (and below the recorded expected size when that
is positive), the engine resumes from the file's current length: it sends a
byte-range request at that offset with `If-Range` set to the validator, and a
server that honours the range (status 206) gets only the remaining bytes
appended, making the final file identical to a fresh full download. -/
theorem resume_transfers_remaining (url t : String) (c full : List Nat)
    (m : DownloadMeta) (es : Option Nat) (sizes : List Nat)
    (hurl : m.url = url) (hetag : m.etag = some t)
    (hbelow : 0 < m.expectedSize → c.length < m.expectedSize)
    (hc : c ≠ [])
    (hpre : full.take c.length = c)
    (hlen : c.length < full.length)
    (hes : es = none ∨ es = some full.length) :
    requestFor url { file := some c, meta := some m } =
      some { range := some c.length, ifRange := some t } ∧
    (serverRespond { content := full, etag := t }
        { range := some c.length, ifRange := some t }).statusCode = 206 ∧
    (downloadStep url es { content := full, etag := t } sizes
        { file := some c, meta := some m }).outcome = .resolved ∧
    (downloadStep url es { content := full, etag := t } sizes
        { file := some c, meta := some m }).fs =
      { file := some full, meta := none } ∧
    (downloadStep url es { content := full, etag := t } sizes
        { file := some c, meta := some m }).netBytes = full.length - c.length ∧
    (downloadStep url es { content := full, etag := t } sizes
        { file := none, meta := none }).fs =
      { file := some full, meta := none } := by
  have hclen : 0 < c.length := List.length_pos.mpr hc
  have hfl : 0 < full.length := by omega
  have hn : 0 < full.length - c.length := by omega
  have hadd : c.length + (full.length - c.length) = full.length := by omega
  have hpr := preRequest_resume url c m hurl hc hbelow
  have hreq : mkRequest c.length m.etag =
      { range := some c.length, ifRange := some t } := by
    rw [hetag]
    unfold mkRequest
    rw [if_pos ⟨hclen, rfl⟩]
  have hhr : serverHonorsRange { content := full, etag := t }
      { range := some c.length, ifRange := some t } = some c.length := by
    simp [serverHonorsRange, Nat.le_of_lt hlen]
  have hresp : serverRespond { content := full, etag := t }
      { range := some c.length, ifRange := some t } =
      { statusCode := 206, location := none,
        contentLength := some (full.length - c.length),
        etag := some t, lastModified := none } := by
    unfold serverRespond
    rw [hhr]
  have hbody : serverBody { content := full, etag := t }
      { range := some c.length, ifRange := some t } = full.drop c.length := by
    unfold serverBody
    rw [hhr]
  have hw2 : c ++ full.drop c.length = full := by
    have h0 := List.take_append_drop c.length full
    rw [hpre] at h0
    exact h0
  have hw : c ++ (chunkBy sizes (full.drop c.length)).flatten = full := by
    rw [chunkBy_flatten]
    exact hw2
  have hesv : es.getD 0 = 0 ∨ es.getD 0 = full.length := by
    rcases hes with h | h <;> simp [h]
  have hsfh : sizeFromHeaders c.length
      { statusCode := 206, location := none,
        contentLength := some (full.length - c.length),
        etag := some t, lastModified := none } = full.length := by
    simp [sizeFromHeaders, hclen, hn]
    omega
  have hstep : downloadStep url es { content := full, etag := t } sizes
      { file := some c, meta := some m } =
      handleResponse url es c.length { file := some c, meta := some m }
        { statusCode := 206, location := none,
          contentLength := some (full.length - c.length),
          etag := some t, lastModified := none }
        (chunkBy sizes (full.drop c.length)) := by
    unfold downloadStep
    rw [hpr]
    simp only [hreq, hresp, hbody]
  have hhandle : handleResponse url es c.length { file := some c, meta := some m }
      { statusCode := 206, location := none,
        contentLength := some (full.length - c.length),
        etag := some t, lastModified := none }
      (chunkBy sizes (full.drop c.length)) =
      { fs := { file := some full, meta := none }, outcome := .resolved,
        progress := progressTrace c.length full.length
          (chunkBy sizes (full.drop c.length)),
        netBytes := full.length - c.length,
        metaWritten := some { url := url, expectedSize := full.length,
                              etag := some t, lastModified := none } } := by
    rcases hesv with hv | hv <;>
      simp [handleResponse, finalizeDownload, sizeFromHeaders, hv, hclen, hn,
        hfl, hadd, hw, hw2, chunkBy_flatten, List.length_drop]
  have hsfh0 : sizeFromHeaders 0
      { statusCode := 200, location := none, contentLength := some full.length,
        etag := some t, lastModified := none } = full.length := by
    simp [sizeFromHeaders, hfl]
  have hfresh : downloadStep url es { content := full, etag := t } sizes
      { file := none, meta := none } =
      handleResponse url es 0 { file := none, meta := none }
        { statusCode := 200, location := none, contentLength := some full.length,
          etag := some t, lastModified := none }
        (chunkBy sizes full) := by
    unfold downloadStep
    have h1 : preRequest url { file := none, meta := none } =
        .request { file := none, meta := none } 0 none := rfl
    rw [h1]
    have hhr0 : serverHonorsRange { content := full, etag := t }
        (mkRequest 0 none) = none := rfl
    simp only [serverRespond, serverBody, hhr0]
  have hfreshhandle : (handleResponse url es 0 { file := none, meta := none }
      { statusCode := 200, location := none, contentLength := some full.length,
        etag := some t, lastModified := none }
      (chunkBy sizes full)).fs = { file := some full, meta := none } := by
    rcases hesv with hv | hv <;>
      simp [handleResponse, finalizeDownload, sizeFromHeaders, hv, hfl,
        chunkBy_flatten]
  refine ⟨?_, ?_, ?_, ?_, ?_, ?_⟩
  · unfold requestFor
    rw [hpr]
    show some (mkRequest c.length m.etag) = _
    rw [hreq]
  · rw [hresp]
  · rw [hstep, hhandle]
  · rw [hstep, hhandle]
  · rw [hstep, hhandle]
  · rw [hfresh, hfreshhandle]

/-- **C1** witness for the amended claim: one byte on disk out of three,
matching validator `"e"`; the resumed call transfers exactly the two
remaining bytes and ends with the same file as a fresh download. -/
theorem resume_transfers_remaining_witness :
    (downloadStep "u" none { content := [1, 2, 3], etag := "e" } [1]
        { file := some [1],
          meta := some { url := "u", expectedSize := 3, etag := some "e",
                         lastModified := none } }).fs =
      { file := some [1, 2, 3], meta := none } ∧
    (downloadStep "u" none { content := [1, 2, 3], etag := "e" } [1]
        { file := some [1],
          meta := some { url := "u", expectedSize := 3, etag := some "e",
                         lastModified := none } }).netBytes = 2 := by
  have h := resume_transfers_remaining "u" "e" [1] [1, 2, 3]
    { url := "u", expectedSize := 3, etag := some "e", lastModified := none }
    none [1] rfl rfl (fun _ => by decide) (by decide) (by decide) (by decide)
    (Or.inl rfl)
  exact ⟨h.2.2.2.1, h.2.2.2.2.1⟩

/-- **C2**: a transfer that asked to resume (`resumeFrom > 0`) but received the
full content (status 200) discards the stale partial: the data file ends up
either deleted (failed size validation) or holding exactly the newly received
body, written from byte zero by a non-append stream — never stale bytes with
new bytes appended. -/
theorem range_rejected_restart (url : String) (es : Option Nat) (resumeFrom : Nat)
    (st : FsState) (resp : NetResponse) (chunks : List (List Nat))
    (hpos : 0 < resumeFrom) (h200 : resp.statusCode = 200) :
    ((handleResponse url es resumeFrom st resp chunks).fs.file = none ∨
      (handleResponse url es resumeFrom st resp chunks).fs.file = some chunks.flatten) ∧
    ∀ old, st.file = some old → old ≠ [] →
      (handleResponse url es resumeFrom st resp chunks).fs.file ≠
        some (old ++ chunks.flatten) := by
  have h300 : ¬(300 ≤ resp.statusCode ∧ resp.statusCode < 400 ∧ resp.location.isSome) := by
    rintro ⟨h1, -, -⟩; omega
  have h45 : ¬(¬(resp.statusCode = 206 ∧ 0 < resumeFrom) ∧ resp.statusCode ≠ 200) :=
    fun hh => hh.2 h200
  have hnr : ¬(resp.statusCode = 206 ∧ 0 < resumeFrom) := by rintro ⟨h, -⟩; omega
  have main : (handleResponse url es resumeFrom st resp chunks).fs.file = none ∨
      (handleResponse url es resumeFrom st resp chunks).fs.file = some chunks.flatten := by
    simp only [handleResponse, if_neg h300, if_neg h45]
    split
    · left; simp [if_neg hnr, if_pos hpos]
    · simp only [if_neg hnr, if_pos hpos, List.nil_append]
      exact finalizeDownload_file_cases _ _
  refine ⟨main, fun old hold holdne habs => ?_⟩
  rcases main with h | h
  · rw [habs] at h; cases h
  · rw [habs] at h
    injection h with h5
    have hlen := congrArg List.length h5
    rw [List.length_append] at hlen
    exact holdne (List.length_eq_zero.mp (by omega))

/-- **C2** witness. -/
theorem range_rejected_restart_witness :
    (handleResponse "u" none 1
        { file := some [9], meta := none }
        { statusCode := 200, location := none, contentLength := some 2,
          etag := none, lastModified := none } [[1], [2]]).fs.file ≠
      some ([9] ++ [1, 2]) :=
  (range_rejected_restart "u" none 1
    { file := some [9], meta := none }
    { statusCode := 200, location := none, contentLength := some 2,
      etag := none, lastModified := none } [[1], [2]]
    (by decide) rfl).2 [9] rfl (by decide)

/-- **C4**: when the stream ends without abort, a known effective total size
must match the final file length exactly — otherwise data file and sidecar are
both deleted and the call rejects with a validation error; on a match, or when
no total is known, only the sidecar is deleted and the call resolves with the
data file in place. -/
theorem completion_validation (effectiveSize : Nat) (written : List Nat) :
    (0 < effectiveSize → written.length ≠ effectiveSize →
      finalizeDownload effectiveSize written =
        ({ file := none, meta := none },
          .rejected (.incomplete effectiveSize written.length))) ∧
    (0 < effectiveSize → written.length = effectiveSize →
      finalizeDownload effectiveSize written =
        ({ file := some written, meta := none }, .resolved)) ∧
    (effectiveSize = 0 →
      finalizeDownload effectiveSize written =
        ({ file := some written, meta := none }, .resolved)) := by
  refine ⟨fun h1 h2 => ?_, fun h1 h2 => ?_, fun h1 => ?_⟩
  · simp [finalizeDownload, h1, h2]
  · simp [finalizeDownload, h1, h2]
  · simp [finalizeDownload, h1]

/-- **C4** witness. -/
theorem completion_validation_witness :
    finalizeDownload 3 [1, 2] =
      ({ file := none, meta := none }, .rejected (.incomplete 3 2)) ∧
    finalizeDownload 2 [1, 2] =
      ({ file := some [1, 2], meta := none }, .resolved) ∧
    finalizeDownload 0 [1, 2] =
      ({ file := some [1, 2], meta := none }, .resolved) :=
  ⟨(completion_validation 3 [1, 2]).1 (by decide) (by decide),
   (completion_validation 2 [1, 2]).2.1 (by decide) (by decide),
   (completion_validation 0 [1, 2]).2.2 rfl⟩

/-- **C5**: invoking the install transfer again on an already-complete
destination (cached data file present, sidecar absent, size matching when
declared) reports a 100% download instantly and re-fetches nothing: the
action trace contains no download call. -/
theorem idempotent_completion (url key : String) (st : FsState) (es : Option Nat)
    (h : isCacheValid st es = true) :
    downloadAndExtractTrace url key st es =
      [.progress "download" 100, .cacheTouch key,
       .progress "extract" 0, .extractCall url] ∧
    ∀ u, InstallEvent.downloadCall u ∉ downloadAndExtractTrace url key st es := by
  unfold downloadAndExtractTrace
  simp [h]

/-- **C5** witness. -/
theorem idempotent_completion_witness :
    isCacheValid { file := some [1, 2], meta := none } (some 2) = true ∧
    ∀ u, InstallEvent.downloadCall u ∉
      downloadAndExtractTrace "u" "k" { file := some [1, 2], meta := none } (some 2) :=
  ⟨by decide,
   (idempotent_completion "u" "k" { file := some [1, 2], meta := none } (some 2)
     (by decide)).2⟩

/-- **C6**: for every sequence of populate, touch and evict operations,
running `evict` on the resulting cache leaves at most `K` folders (exactly
`K` when at least `K` exist); every folder either survives or is deleted,
every survivor was touched more recently than every deleted folder, and the
deletions proceed oldest-touched first (deletion order strictly ascending in
mtime). -/
theorem cache_evict_bound (K : Nat) (ops : List CacheOp) :
    (evictList K (runCache K ops).entries).1.length ≤ K ∧
    (K ≤ (runCache K ops).entries.length →
      (evictList K (runCache K ops).entries).1.length = K) ∧
    (∀ e ∈ (runCache K ops).entries,
      e ∈ (evictList K (runCache K ops).entries).1 ∨
        e ∈ (evictList K (runCache K ops).entries).2) ∧
    (∀ a ∈ (evictList K (runCache K ops).entries).1,
      ∀ d ∈ (evictList K (runCache K ops).entries).2, d.mtime < a.mtime) ∧
    ((evictList K (runCache K ops).entries).2.Pairwise
      fun a b => a.mtime < b.mtime) := by
  obtain ⟨hb, hn, hm⟩ := runCache_good K ops
  have hperm := sortByMtimeDesc_perm (runCache K ops).entries
  have hsorted := sortByMtimeDesc_sorted (runCache K ops).entries
  have hmt : (sortByMtimeDesc (runCache K ops).entries).Pairwise
      fun a b => a.mtime ≠ b.mtime :=
    (hperm.pairwise_iff fun h => h.symm).mpr hm
  have hstrict : (sortByMtimeDesc (runCache K ops).entries).Pairwise
      fun a b => b.mtime < a.mtime :=
    (hsorted.and hmt).imp fun h => by omega
  have he1 : (evictList K (runCache K ops).entries).1 =
      (sortByMtimeDesc (runCache K ops).entries).take K := rfl
  have he2 : (evictList K (runCache K ops).entries).2 =
      ((sortByMtimeDesc (runCache K ops).entries).drop K).reverse := rfl
  have hsplit := List.take_append_drop K (sortByMtimeDesc (runCache K ops).entries)
  have hcross : ∀ a ∈ (sortByMtimeDesc (runCache K ops).entries).take K,
      ∀ d ∈ (sortByMtimeDesc (runCache K ops).entries).drop K, d.mtime < a.mtime := by
    have h0 := hstrict
    rw [← hsplit] at h0
    exact (List.pairwise_append.mp h0).2.2
  refine ⟨?_, ?_, ?_, ?_, ?_⟩
  · rw [he1, List.length_take]
    exact inf_le_left
  · intro hK
    rw [he1, List.length_take, hperm.length_eq]
    exact inf_eq_left.mpr hK
  · intro e he
    have h1 : e ∈ sortByMtimeDesc (runCache K ops).entries := hperm.mem_iff.mpr he
    rw [← hsplit] at h1
    rcases List.mem_append.mp h1 with h2 | h2
    · left; rw [he1]; exact h2
    · right; rw [he2]; exact List.mem_reverse.mpr h2
  · intro a ha d hd
    rw [he1] at ha
    rw [he2] at hd
    exact hcross a ha d (List.mem_reverse.mp hd)
  · rw [he2, List.pairwise_reverse]
    exact List.Pairwise.sublist (List.drop_sublist _ _) hstrict

/-- **C6** witness: populate `a`, `b`, `c` into a cache with max 2; eviction
keeps exactly 2 survivors and both survivors out-date the deleted folder. -/
theorem cache_evict_bound_witness :
    (evictList 2 (runCache 2
        [.populate "a", .populate "b", .populate "c"]).entries).1.length = 2 ∧
    ∀ a ∈ (evictList 2 (runCache 2
        [.populate "a", .populate "b", .populate "c"]).entries).1,
      ∀ d ∈ (evictList 2 (runCache 2
          [.populate "a", .populate "b", .populate "c"]).entries).2,
        d.mtime < a.mtime :=
  ⟨(cache_evict_bound 2 [.populate "a", .populate "b", .populate "c"]).2.1
      (by decide),
   (cache_evict_bound 2 [.populate "a", .populate "b", .populate "c"]).2.2.2.1⟩

/-- **C7**: within one `downloadAndExtractMulti` call in which every file
declares a positive size, the download-phase percent sequence reported to the
progress sink is monotonically non-decreasing across the whole batch,
including across file boundaries; cached files contribute their full size to
the completed total before the next file is processed (as encoded in
`multiGo`). -/
theorem multi_progress_monotone (files : List MFile)
    (hpos : ∀ f ∈ files, 0 < f.size) :
    List.Chain' (· ≤ ·) (multiPercents files) := by
  unfold multiPercents
  cases files with
  | nil => exact List.chain'_nil
  | cons f rest =>
      have h1 : 0 < f.size := hpos f (by simp)
      have hT : 0 < ((f :: rest).map (·.size)).sum := by
        simp only [List.map_cons, List.sum_cons]
        omega
      exact (multiGo_chain _ _ hT (f :: rest) 0 0 hpos).1

/-- **C7** witness: a two-file batch (one already cached, one downloaded in
three chunks) reports the non-decreasing sequence `[40, 40, 60, 80, 100]`. -/
theorem multi_progress_monotone_witness :
    multiPercents
        [{ url := "u", size := 2, srv := { content := [1, 2], etag := "e" },
           sizes := [1], st0 := { file := some [1, 2], meta := none } },
         { url := "v", size := 3, srv := { content := [3, 4, 5], etag := "f" },
           sizes := [1, 1], st0 := { file := none, meta := none } }] =
      [40, 40, 60, 80, 100] ∧
    List.Chain' (· ≤ ·) (multiPercents
        [{ url := "u", size := 2, srv := { content := [1, 2], etag := "e" },
           sizes := [1], st0 := { file := some [1, 2], meta := none } },
         { url := "v", size := 3, srv := { content := [3, 4, 5], etag := "f" },
           sizes := [1, 1], st0 := { file := none, meta := none } }]) :=
  ⟨by rfl,
   multi_progress_monotone _ (by
     intro f hf
     rcases List.mem_cons.mp hf with rfl | hf2
     · decide
     · rcases List.mem_cons.mp hf2 with rfl | hf3
       · decide
       · cases hf3)⟩

/-- **C8**: on a non-zero backend exit code, `extract` succeeds anyway exactly
when the diagnostics contain at least one `ERROR:` line and every such line
reports an unsupported compression method; if any error line reports anything
else, it rejects with an error carrying the captured diagnostics. -/
theorem extract_unsupported_method (code : Int) (stderr : List Char)
    (hcode : code ≠ 0) :
    (extractClose code stderr = .ok () ↔
      errorLines stderr ≠ [] ∧
        ∀ l ∈ errorLines stderr, unsupportedMethodLine l = true) ∧
    ((∃ l ∈ errorLines stderr, unsupportedMethodLine l = false) →
      extractClose code stderr = .error ("Extraction failed: ".toList ++ stderr)) := by
  unfold extractClose
  rw [if_pos hcode]
  constructor
  · by_cases h : 0 < (errorLines stderr).length ∧
        (errorLines stderr).all unsupportedMethodLine = true
    · rw [if_pos h]
      refine ⟨fun _ => ⟨?_, ?_⟩, fun _ => rfl⟩
      · intro h0
        rw [h0] at h
        exact absurd h.1 (by simp)
      · exact fun l hl => List.all_eq_true.mp h.2 l hl
    · rw [if_neg h]
      refine ⟨fun hbad => absurd hbad (by simp), fun ⟨hne, hall⟩ => absurd ⟨?_, ?_⟩ h⟩
      · exact List.length_pos.mpr hne
      · exact List.all_eq_true.mpr hall
  · rintro ⟨l, hl, hbadl⟩
    have hnall : ¬(0 < (errorLines stderr).length ∧
        (errorLines stderr).all unsupportedMethodLine = true) := by
      rintro ⟨-, hall⟩
      have := List.all_eq_true.mp hall l hl
      rw [hbadl] at this
      cases this
    rw [if_neg hnall]
    have hne : stderr ≠ [] := by
      intro h0
      rw [h0] at hl
      have : errorLines ([] : List Char) = [] := rfl
      rw [this] at hl
      cases hl
    have hE : ¬stderr.isEmpty = true := by simpa [List.isEmpty_iff] using hne
    rw [if_neg hE]

/-- **C8** witness: exit code 2 with one unsupported-method error line
succeeds; exit code 2 with an additional unrelated error line rejects with the
diagnostics. -/
theorem extract_unsupported_method_witness :
    extractClose 2 "ERROR: Unsupported Method".toList = .ok () ∧
    extractClose 2 "ERROR: Unsupported Method\nERROR: bad".toList =
      .error ("Extraction failed: ".toList ++
        "ERROR: Unsupported Method\nERROR: bad".toList) :=
  ⟨(extract_unsupported_method 2 "ERROR: Unsupported Method".toList
      (by decide)).1.mpr ⟨by decide, by decide⟩,
   (extract_unsupported_method 2 "ERROR: Unsupported Method\nERROR: bad".toList
      (by decide)).2 ⟨"ERROR: bad".toList, by decide, by decide⟩⟩

/-- **C9**: `readPortLock` re-validates the recorded owner's liveness: a dead
owner's lock is deleted as a side effect of the read and reads as nothing (and
stays absent on the next read); a live owner's record is returned with the
lock file untouched. -/
theorem port_lock_staleness (probe : Nat → ProcProbe) (lock : PortLock)
    (hpid : lock.pid ≠ 0) :
    (isProcessAlive probe lock.pid = false →
      readPortLock probe (.valid lock) = (none, .absent) ∧
      readPortLock probe .absent = (none, .absent)) ∧
    (isProcessAlive probe lock.pid = true →
      readPortLock probe (.valid lock) = (some lock, .valid lock)) := by
  constructor
  · intro hdead
    exact ⟨by simp [readPortLock, hpid, hdead], rfl⟩
  · intro halive
    simp [readPortLock, hpid, halive]

/-- **C9** witness. -/
theorem port_lock_staleness_witness :
    readPortLock (fun _ => .esrch) (.valid { pid := 42, installationName := "x", timestamp := 7 }) =
      (none, .absent) ∧
    readPortLock (fun _ => .ok) (.valid { pid := 42, installationName := "x", timestamp := 7 }) =
      (some { pid := 42, installationName := "x", timestamp := 7 },
        .valid { pid := 42, installationName := "x", timestamp := 7 }) :=
  ⟨((port_lock_staleness (fun _ => .esrch)
      { pid := 42, installationName := "x", timestamp := 7 } (by decide)).1 rfl).1,
   (port_lock_staleness (fun _ => .ok)
      { pid := 42, installationName := "x", timestamp := 7 } (by decide)).2 rfl⟩

/-- **C10**: a sidecar recording the requested URL and a positive expected
size, next to a data file at least that long, is the footprint of a crash
between the final write and the sidecar delete: `download` deletes the sidecar
and resolves immediately — no request is issued, no byte moves, no progress
fires. -/
theorem crash_recovery_early_resolve (url : String) (es : Option Nat) (srv : Server)
    (sizes : List Nat) (c : List Nat) (m : DownloadMeta)
    (hurl : m.url = url) (hpos : 0 < m.expectedSize) (hge : m.expectedSize ≤ c.length) :
    downloadStep url es srv sizes { file := some c, meta := some m } =
      { fs := { file := some c, meta := none }, outcome := .resolved,
        progress := [], netBytes := 0, metaWritten := none } ∧
    requestFor url { file := some c, meta := some m } = none := by
  have hc : ¬c.length = 0 := by omega
  constructor
  · unfold downloadStep preRequest
    simp [hurl, hc, hpos, hge]
  · unfold requestFor preRequest
    simp [hurl, hc, hpos, hge]

/-- **C10** witness. -/
theorem crash_recovery_early_resolve_witness :
    downloadStep "u" none { content := [9, 9, 9], etag := "e" } []
        { file := some [7, 8],
          meta := some { url := "u", expectedSize := 2, etag := some "e", lastModified := none } } =
      { fs := { file := some [7, 8], meta := none }, outcome := .resolved,
        progress := [], netBytes := 0, metaWritten := none } :=
  (crash_recovery_early_resolve "u" none { content := [9, 9, 9], etag := "e" } []
    [7, 8] { url := "u", expectedSize := 2, etag := some "e", lastModified := none }
    rfl (by decide) (by decide)).1

end Launcher
